import Mathlib

/-!
Shallow embedding of the `pieuvre` transaction-ledger program
(`src/main.rs`).  The program replays a stream of financial transactions
(deposits, withdrawals, disputes, resolves, chargebacks) against per-client
accounts.

Modelling choices:
* `rust_decimal::Decimal` amounts are modelled as exact rationals `ℚ`
  (the code relies only on exact decimal `+`, `-`, `<`, `>=`).
* The two `HashMap`s are modelled as association lists with a
  replace-in-place `mapInsert` and a first-hit `mapLookup`, which matches
  `HashMap::insert` / `get` / `get_mut` observationally.
* `Option::unwrap()` on a `None` amount panics in Rust; every handler
  therefore returns `Option Ledger`, `none` meaning the process aborts.
-/

inductive TransactionType where
  | Deposit
  | Withdrawal
  | Dispute
  | Resolve
  | Chargeback
deriving DecidableEq, Repr

structure Transaction where
  transaction_type : TransactionType
  client_id : Nat
  transaction_id : Nat
  amount : Option ℚ
  disputed : Bool
deriving DecidableEq, Repr

structure Account where
  client_id : Nat
  available : ℚ
  held : ℚ
  total : ℚ
  locked : Bool
deriving DecidableEq, Repr

/-- Rust `Account::new`: zero balances, unlocked. -/
def Account.new (client_id : Nat) : Account :=
  { client_id := client_id, available := 0, held := 0, total := 0, locked := false }

/-- First-hit lookup in an association list, as `HashMap::get`. -/
def mapLookup {β : Type} (k : Nat) : List (Nat × β) → Option β
  | [] => none
  | (k', v) :: rest => if k' = k then some v else mapLookup k rest

/-- Replace-or-append insertion, as `HashMap::insert` (and as writing
through `get_mut`). -/
def mapInsert {β : Type} (k : Nat) (v : β) : List (Nat × β) → List (Nat × β)
  | [] => [(k, v)]
  | (k', v') :: rest =>
      if k' = k then (k, v) :: rest else (k', v') :: mapInsert k v rest

structure Ledger where
  transactions_by_id : List (Nat × Transaction)
  account_by_id : List (Nat × Account)
deriving DecidableEq, Repr

/-- Rust `Ledger::default()`: both maps empty. -/
def Ledger.empty : Ledger := { transactions_by_id := [], account_by_id := [] }

/-- Handler `Ledger::deposit`.  Records the transaction in history, then credits the
account (creating it when absent).  `transaction.amount.unwrap()` panics when
the amount is absent (`none` result). -/
def Ledger.deposit (l : Ledger) (t : Transaction) : Option Ledger :=
  let txs := mapInsert t.transaction_id t l.transactions_by_id
  match t.amount with
  | none => none
  | some a =>
    match mapLookup t.client_id l.account_by_id with
    | some account =>
        let available := account.available + a
        some { l with
          transactions_by_id := txs,
          account_by_id := mapInsert t.client_id
            { account with available := available, total := available + account.held }
            l.account_by_id }
    | none =>
        some { l with
          transactions_by_id := txs,
          account_by_id := mapInsert t.client_id
            { Account.new t.client_id with available := a, total := a }
            l.account_by_id }

/-- Handler `Ledger::withdraw`.  Records the transaction in history unconditionally;
when the account exists, `unwrap`s the amount (panic on `none`), rejects when
`available < amount`, and otherwise debits `available` and `total`. -/
def Ledger.withdraw (l : Ledger) (t : Transaction) : Option Ledger :=
  let txs := mapInsert t.transaction_id t l.transactions_by_id
  match mapLookup t.client_id l.account_by_id with
  | none => some { l with transactions_by_id := txs }
  | some account =>
    match t.amount with
    | none => none
    | some amount =>
      if account.available < amount then
        some { l with transactions_by_id := txs }
      else
        some { l with
          transactions_by_id := txs,
          account_by_id := mapInsert t.client_id
            { account with
                available := account.available - amount,
                total := account.total - amount }
            l.account_by_id }

/-- Handler `Ledger::dispute`.  Looks the referenced transaction up in history; on a
client match and an existing account, sets `disputed := true` and, when
`available > amount` (strict), moves `amount` from `available` to `held`.
The stored amount is `unwrap`ed (panic on `none`). -/
def Ledger.dispute (l : Ledger) (t : Transaction) : Option Ledger :=
  match mapLookup t.transaction_id l.transactions_by_id with
  | none => some l
  | some ft =>
    if ft.client_id = t.client_id then
      match mapLookup t.client_id l.account_by_id with
      | none => some l
      | some account =>
        let txs := mapInsert t.transaction_id { ft with disputed := true }
          l.transactions_by_id
        match ft.amount with
        | none => none
        | some amount =>
          if amount < account.available then
            some { l with
              transactions_by_id := txs,
              account_by_id := mapInsert t.client_id
                { account with
                    available := account.available - amount,
                    held := account.held + amount }
                l.account_by_id }
          else
            some { l with transactions_by_id := txs }
    else some l

/-- Handler `Ledger::resolve`.  On a found transaction with matching client and an
existing account: when `disputed && held >= amount`, moves `amount` from
`held` back to `available`; in either case clears `disputed` (the clearing
happens inside the account-exists branch only). -/
def Ledger.resolve (l : Ledger) (t : Transaction) : Option Ledger :=
  match mapLookup t.transaction_id l.transactions_by_id with
  | none => some l
  | some ft =>
    if ft.client_id = t.client_id then
      match mapLookup t.client_id l.account_by_id with
      | none => some l
      | some account =>
        match ft.amount with
        | none => none
        | some amount =>
          let txs := mapInsert t.transaction_id { ft with disputed := false }
            l.transactions_by_id
          if ft.disputed = true ∧ amount ≤ account.held then
            some { l with
              transactions_by_id := txs,
              account_by_id := mapInsert t.client_id
                { account with
                    available := account.available + amount,
                    held := account.held - amount }
                l.account_by_id }
          else
            some { l with transactions_by_id := txs }
    else some l

/-- Handler `Ledger::chargeback`.  On a found transaction with matching client and an
existing account: when `disputed && held >= amount`, debits `total` and
`held` by `amount` and locks the account; in either case clears `disputed`
(inside the account-exists branch only). -/
def Ledger.chargeback (l : Ledger) (t : Transaction) : Option Ledger :=
  match mapLookup t.transaction_id l.transactions_by_id with
  | none => some l
  | some ft =>
    if ft.client_id = t.client_id then
      match mapLookup t.client_id l.account_by_id with
      | none => some l
      | some account =>
        match ft.amount with
        | none => none
        | some amount =>
          let txs := mapInsert t.transaction_id { ft with disputed := false }
            l.transactions_by_id
          if ft.disputed = true ∧ amount ≤ account.held then
            some { l with
              transactions_by_id := txs,
              account_by_id := mapInsert t.client_id
                { account with
                    total := account.total - amount,
                    held := account.held - amount,
                    locked := true }
                l.account_by_id }
          else
            some { l with transactions_by_id := txs }
    else some l

/-- Dispatcher `Ledger::process`: dispatch on the transaction type. -/
def Ledger.process (l : Ledger) (t : Transaction) : Option Ledger :=
  match t.transaction_type with
  | .Deposit => l.deposit t
  | .Withdrawal => l.withdraw t
  | .Dispute => l.dispute t
  | .Resolve => l.resolve t
  | .Chargeback => l.chargeback t

/-- The main loop: process a list of transactions in order, aborting the run
on the first panic. -/
def Ledger.processList (l : Ledger) : List Transaction → Option Ledger
  | [] => some l
  | t :: rest =>
    match l.process t with
    | none => none
    | some l' => l'.processList rest

/-- Accessor `Ledger::get_account`. -/
def Ledger.get_account (l : Ledger) (client_id : Nat) : Option Account :=
  mapLookup client_id l.account_by_id

/-- The account-balance invariant of the spec: `total == available + held`
for every account in the mapping. -/
def Ledger.balanced (l : Ledger) : Prop :=
  ∀ c acc, mapLookup c l.account_by_id = some acc →
    acc.total = acc.available + acc.held

/-- Non-negativity of every account's three balances. -/
def Ledger.nonnegAccounts (l : Ledger) : Prop :=
  ∀ c acc, mapLookup c l.account_by_id = some acc →
    0 ≤ acc.available ∧ 0 ≤ acc.held ∧ 0 ≤ acc.total

/-- Every stored history entry carries a present amount. -/
def Ledger.historyAmountsPresent (l : Ledger) : Prop :=
  ∀ k e, mapLookup k l.transactions_by_id = some e → e.amount.isSome

/-- Every stored history entry carries a present, non-negative amount. -/
def Ledger.historyAmountsNonneg (l : Ledger) : Prop :=
  ∀ k e, mapLookup k l.transactions_by_id = some e →
    ∃ a, e.amount = some a ∧ 0 ≤ a

/-- Every Deposit/Withdrawal in the input carries a present amount. -/
def amountsPresent (ts : List Transaction) : Prop :=
  ∀ t ∈ ts,
    (t.transaction_type = .Deposit ∨ t.transaction_type = .Withdrawal) →
    t.amount.isSome

/-- Every Deposit/Withdrawal in the input carries a non-negative amount. -/
def amountsNonneg (ts : List Transaction) : Prop :=
  ∀ t ∈ ts,
    (t.transaction_type = .Deposit ∨ t.transaction_type = .Withdrawal) →
    ∃ a, t.amount = some a ∧ 0 ≤ a

/-- A deposit record as deserialized from a `deposit` input row. -/
def depositTx (c tx : Nat) (a : ℚ) : Transaction :=
  { transaction_type := .Deposit, client_id := c, transaction_id := tx,
    amount := some a, disputed := false }

/-- A withdrawal record as deserialized from a `withdrawal` input row. -/
def withdrawalTx (c tx : Nat) (a : ℚ) : Transaction :=
  { transaction_type := .Withdrawal, client_id := c, transaction_id := tx,
    amount := some a, disputed := false }

/-- A dispute record (no amount). -/
def disputeTx (c tx : Nat) : Transaction :=
  { transaction_type := .Dispute, client_id := c, transaction_id := tx,
    amount := none, disputed := false }

/-- A resolve record (no amount). -/
def resolveTx (c tx : Nat) : Transaction :=
  { transaction_type := .Resolve, client_id := c, transaction_id := tx,
    amount := none, disputed := false }

/-- A chargeback record (no amount). -/
def chargebackTx (c tx : Nat) : Transaction :=
  { transaction_type := .Chargeback, client_id := c, transaction_id := tx,
    amount := none, disputed := false }

/-! ### Association-list map lemmas -/

theorem mapLookup_mapInsert {β : Type} (k c : Nat) (v : β) (m : List (Nat × β)) :
    mapLookup c (mapInsert k v m) =
      if k = c then some v else mapLookup c m := by
  induction m with
  | nil => by_cases h : k = c <;> simp [mapInsert, mapLookup, h]
  | cons p rest ih =>
    obtain ⟨k', v'⟩ := p
    by_cases h1 : k' = k
    · subst h1
      by_cases h2 : k' = c <;> simp [mapInsert, mapLookup, h2]
    · by_cases h2 : k' = c
      · subst h2
        have hkc : k ≠ k' := fun h => h1 h.symm
        simp [mapInsert, h1, mapLookup, hkc]
      · simp [mapInsert, h1, mapLookup, h2, ih]

theorem mapLookup_mapInsert_self {β : Type} (k : Nat) (v : β)
    (m : List (Nat × β)) : mapLookup k (mapInsert k v m) = some v := by
  simp [mapLookup_mapInsert]

theorem mapLookup_mapInsert_ne {β : Type} {k c : Nat} (v : β)
    (m : List (Nat × β)) (h : k ≠ c) :
    mapLookup c (mapInsert k v m) = mapLookup c m := by
  simp [mapLookup_mapInsert, h]

theorem mapInsert_mapInsert_same {β : Type} (k : Nat) (v : β)
    (m : List (Nat × β)) :
    mapInsert k v (mapInsert k v m) = mapInsert k v m := by
  induction m with
  | nil => simp [mapInsert]
  | cons p rest ih =>
    obtain ⟨k', v'⟩ := p
    by_cases h : k' = k <;> simp [mapInsert, h, ih]

theorem mapLookup_isSome_mapInsert {β : Type} (k c : Nat) (v : β)
    (m : List (Nat × β)) (h : (mapLookup c m).isSome) :
    (mapLookup c (mapInsert k v m)).isSome := by
  rw [mapLookup_mapInsert]
  split <;> simp [h]

/-! ### Preservation of the balance invariant (each handler) -/

theorem Ledger.balanced_deposit {l l' : Ledger} {t : Transaction}
    (hb : l.balanced) (h : l.deposit t = some l') : l'.balanced := by
  unfold Ledger.deposit at h
  split at h
  · exact Option.noConfusion h
  · rename_i a ha
    split at h
    · rename_i account hacc
      simp only [Option.some.injEq] at h
      subst h
      intro c acc hc
      simp only [mapLookup_mapInsert] at hc
      split at hc
      · simp only [Option.some.injEq] at hc
        subst hc
        rfl
      · exact hb c acc hc
    · simp only [Option.some.injEq] at h
      subst h
      intro c acc hc
      simp only [mapLookup_mapInsert] at hc
      split at hc
      · simp only [Option.some.injEq] at hc
        subst hc
        show a = a + 0
        simp
      · exact hb c acc hc

theorem Ledger.balanced_withdraw {l l' : Ledger} {t : Transaction}
    (hb : l.balanced) (h : l.withdraw t = some l') : l'.balanced := by
  unfold Ledger.withdraw at h
  split at h
  · simp only [Option.some.injEq] at h
    subst h
    exact hb
  · rename_i account hacc
    split at h
    · exact Option.noConfusion h
    · rename_i a ha
      split at h
      · simp only [Option.some.injEq] at h
        subst h
        exact hb
      · simp only [Option.some.injEq] at h
        subst h
        intro c acc hc
        simp only [mapLookup_mapInsert] at hc
        split at hc
        · simp only [Option.some.injEq] at hc
          subst hc
          have hbb := hb t.client_id account hacc
          show account.total - a = account.available - a + account.held
          rw [hbb]; ring
        · exact hb c acc hc

theorem Ledger.balanced_dispute {l l' : Ledger} {t : Transaction}
    (hb : l.balanced) (h : l.dispute t = some l') : l'.balanced := by
  unfold Ledger.dispute at h
  split at h
  · simp only [Option.some.injEq] at h
    subst h; exact hb
  · rename_i ft hft
    split at h
    · split at h
      · simp only [Option.some.injEq] at h
        subst h; exact hb
      · rename_i account hacc
        split at h
        · exact Option.noConfusion h
        · rename_i a ha
          split at h
          · simp only [Option.some.injEq] at h
            subst h
            intro c acc hc
            simp only [mapLookup_mapInsert] at hc
            split at hc
            · simp only [Option.some.injEq] at hc
              subst hc
              have hbb := hb t.client_id account hacc
              show account.total = account.available - a + (account.held + a)
              rw [hbb]; ring
            · exact hb c acc hc
          · simp only [Option.some.injEq] at h
            subst h; exact hb
    · simp only [Option.some.injEq] at h
      subst h; exact hb

theorem Ledger.balanced_resolve {l l' : Ledger} {t : Transaction}
    (hb : l.balanced) (h : l.resolve t = some l') : l'.balanced := by
  unfold Ledger.resolve at h
  split at h
  · simp only [Option.some.injEq] at h
    subst h; exact hb
  · rename_i ft hft
    split at h
    · split at h
      · simp only [Option.some.injEq] at h
        subst h; exact hb
      · rename_i account hacc
        split at h
        · exact Option.noConfusion h
        · rename_i a ha
          split at h
          · simp only [Option.some.injEq] at h
            subst h
            intro c acc hc
            simp only [mapLookup_mapInsert] at hc
            split at hc
            · simp only [Option.some.injEq] at hc
              subst hc
              have hbb := hb t.client_id account hacc
              show account.total = account.available + a + (account.held - a)
              rw [hbb]; ring
            · exact hb c acc hc
          · simp only [Option.some.injEq] at h
            subst h; exact hb
    · simp only [Option.some.injEq] at h
      subst h; exact hb

theorem Ledger.balanced_chargeback {l l' : Ledger} {t : Transaction}
    (hb : l.balanced) (h : l.chargeback t = some l') : l'.balanced := by
  unfold Ledger.chargeback at h
  split at h
  · simp only [Option.some.injEq] at h
    subst h; exact hb
  · rename_i ft hft
    split at h
    · split at h
      · simp only [Option.some.injEq] at h
        subst h; exact hb
      · rename_i account hacc
        split at h
        · exact Option.noConfusion h
        · rename_i a ha
          split at h
          · simp only [Option.some.injEq] at h
            subst h
            intro c acc hc
            simp only [mapLookup_mapInsert] at hc
            split at hc
            · simp only [Option.some.injEq] at hc
              subst hc
              have hbb := hb t.client_id account hacc
              show account.total - a = account.available + (account.held - a)
              rw [hbb]; ring
            · exact hb c acc hc
          · simp only [Option.some.injEq] at h
            subst h; exact hb
    · simp only [Option.some.injEq] at h
      subst h; exact hb

theorem Ledger.balanced_process {l l' : Ledger} {t : Transaction}
    (hb : l.balanced) (h : l.process t = some l') : l'.balanced := by
  unfold Ledger.process at h
  cases htt : t.transaction_type <;> rw [htt] at h
  · exact Ledger.balanced_deposit hb h
  · exact Ledger.balanced_withdraw hb h
  · exact Ledger.balanced_dispute hb h
  · exact Ledger.balanced_resolve hb h
  · exact Ledger.balanced_chargeback hb h

theorem Ledger.balanced_processList {l l' : Ledger} {ts : List Transaction}
    (hb : l.balanced) (h : l.processList ts = some l') : l'.balanced := by
  induction ts generalizing l with
  | nil => unfold Ledger.processList at h; cases h; exact hb
  | cons t rest ih =>
    unfold Ledger.processList at h
    cases hp : l.process t with
    | none => rw [hp] at h; exact Option.noConfusion h
    | some l1 =>
      rw [hp] at h
      exact ih (Ledger.balanced_process hb hp) h

theorem Ledger.balanced_empty : Ledger.empty.balanced := by
  intro c acc hc
  simp [Ledger.empty, mapLookup] at hc

/-! ### C1: the balance equation holds in every reachable state -/

/-- C1: for every sequence of transactions processed by `Ledger.process`
starting from the empty ledger, every account satisfies
`total = available + held` after each call (every intermediate state is the
result of processing a prefix, which this theorem also covers). -/
theorem C1_total_eq_available_plus_held (ts : List Transaction) (l : Ledger)
    (h : Ledger.empty.processList ts = some l) : l.balanced :=
  Ledger.balanced_processList Ledger.balanced_empty h

/-- The ledger obtained by depositing 2 to client 1 as transaction 1. -/
def wLedger : Ledger :=
  { transactions_by_id := [(1, depositTx 1 1 2)],
    account_by_id :=
      [(1, { client_id := 1, available := 2, held := 0, total := 2,
             locked := false })] }

theorem C1_witness :
    Ledger.empty.processList [depositTx 1 1 2] = some wLedger ∧
    wLedger.balanced :=
  ⟨rfl, C1_total_eq_available_plus_held [depositTx 1 1 2] wLedger rfl⟩

/-! ### C4: Resolve and Chargeback are idempotent -/

theorem Ledger.resolve_fixpoint {l l' : Ledger} {t : Transaction}
    (h : l.resolve t = some l') : l'.resolve t = some l' := by
  unfold Ledger.resolve at h ⊢
  split at h
  · rename_i hft
    simp only [Option.some.injEq] at h
    subst h
    simp [hft]
  · rename_i ft hft
    split at h
    · rename_i hcl
      split at h
      · rename_i hacc
        simp only [Option.some.injEq] at h
        subst h
        simp [hft, hcl, hacc]
      · rename_i account hacc
        split at h
        · exact Option.noConfusion h
        · rename_i a ha
          split at h
          · simp only [Option.some.injEq] at h
            subst h
            simp [hcl, ha, mapLookup_mapInsert_self, mapInsert_mapInsert_same]
          · simp only [Option.some.injEq] at h
            subst h
            simp [hcl, ha, hacc, mapLookup_mapInsert_self,
              mapInsert_mapInsert_same]
    · rename_i hcl
      simp only [Option.some.injEq] at h
      subst h
      simp [hft, hcl]

theorem Ledger.chargeback_fixpoint {l l' : Ledger} {t : Transaction}
    (h : l.chargeback t = some l') : l'.chargeback t = some l' := by
  unfold Ledger.chargeback at h ⊢
  split at h
  · rename_i hft
    simp only [Option.some.injEq] at h
    subst h
    simp [hft]
  · rename_i ft hft
    split at h
    · rename_i hcl
      split at h
      · rename_i hacc
        simp only [Option.some.injEq] at h
        subst h
        simp [hft, hcl, hacc]
      · rename_i account hacc
        split at h
        · exact Option.noConfusion h
        · rename_i a ha
          split at h
          · simp only [Option.some.injEq] at h
            subst h
            simp [hcl, ha, mapLookup_mapInsert_self, mapInsert_mapInsert_same]
          · simp only [Option.some.injEq] at h
            subst h
            simp [hcl, ha, hacc, mapLookup_mapInsert_self,
              mapInsert_mapInsert_same]
    · rename_i hcl
      simp only [Option.some.injEq] at h
      subst h
      simp [hft, hcl]

/-- C4: processing a Resolve or Chargeback twice yields the same ledger as
processing it once — the second application is a no-op, because after the
first the referenced transaction is no longer disputed. -/
theorem C4_resolve_chargeback_idempotent (l : Ledger) (t : Transaction)
    (ht : t.transaction_type = TransactionType.Resolve ∨
          t.transaction_type = TransactionType.Chargeback) :
    (l.process t).bind (fun l1 => l1.process t) = l.process t := by
  cases hp : l.process t with
  | none => rfl
  | some l1 =>
    have hfix : l1.process t = some l1 := by
      rcases ht with h | h
      · unfold Ledger.process at hp ⊢
        rw [h] at hp ⊢
        exact Ledger.resolve_fixpoint hp
      · unfold Ledger.process at hp ⊢
        rw [h] at hp ⊢
        exact Ledger.chargeback_fixpoint hp
    simpa using hfix

theorem C4_witness :
    ((wLedger.process (resolveTx 1 1)).bind
        (fun l1 => l1.process (resolveTx 1 1))) =
      wLedger.process (resolveTx 1 1) :=
  C4_resolve_chargeback_idempotent wLedger (resolveTx 1 1) (Or.inl rfl)

/-! ### Dispatch lemmas for `Ledger.process` -/

theorem Ledger.process_eq_deposit {l : Ledger} {t : Transaction}
    (h : t.transaction_type = TransactionType.Deposit) :
    l.process t = l.deposit t := by
  unfold Ledger.process; rw [h]

theorem Ledger.process_eq_withdraw {l : Ledger} {t : Transaction}
    (h : t.transaction_type = TransactionType.Withdrawal) :
    l.process t = l.withdraw t := by
  unfold Ledger.process; rw [h]

theorem Ledger.process_eq_dispute {l : Ledger} {t : Transaction}
    (h : t.transaction_type = TransactionType.Dispute) :
    l.process t = l.dispute t := by
  unfold Ledger.process; rw [h]

theorem Ledger.process_eq_resolve {l : Ledger} {t : Transaction}
    (h : t.transaction_type = TransactionType.Resolve) :
    l.process t = l.resolve t := by
  unfold Ledger.process; rw [h]

theorem Ledger.process_eq_chargeback {l : Ledger} {t : Transaction}
    (h : t.transaction_type = TransactionType.Chargeback) :
    l.process t = l.chargeback t := by
  unfold Ledger.process; rw [h]

/-! ### C3: Dispute semantics -/

/-- C3: for every Dispute whose `tx_id` is found in history with matching
`client_id`, whose client has an account, and whose stored transaction
carries an amount: the stored transaction's `disputed` flag is set to true,
and the funds move `available -= amount; held += amount` happens exactly
when `available > amount` (strict); when `available <= amount` no account
field changes yet `disputed` is still true afterward. -/
theorem C3_dispute_semantics {l : Ledger} {t ft : Transaction}
    {acc : Account} {a : ℚ}
    (htype : t.transaction_type = TransactionType.Dispute)
    (hft : mapLookup t.transaction_id l.transactions_by_id = some ft)
    (hcl : ft.client_id = t.client_id)
    (hacc : mapLookup t.client_id l.account_by_id = some acc)
    (ha : ft.amount = some a) :
    ∃ l', l.process t = some l' ∧
      mapLookup t.transaction_id l'.transactions_by_id =
        some { ft with disputed := true } ∧
      ((a < acc.available ∧
          mapLookup t.client_id l'.account_by_id =
            some { acc with available := acc.available - a,
                            held := acc.held + a }) ∨
       (acc.available ≤ a ∧
          mapLookup t.client_id l'.account_by_id = some acc)) := by
  by_cases hlt : a < acc.available
  · refine ⟨{ l with
        transactions_by_id := mapInsert t.transaction_id
          { ft with disputed := true } l.transactions_by_id,
        account_by_id := mapInsert t.client_id
          { acc with available := acc.available - a, held := acc.held + a }
          l.account_by_id }, ?_, ?_, Or.inl ⟨hlt, ?_⟩⟩
    · rw [Ledger.process_eq_dispute htype]
      unfold Ledger.dispute
      simp [hft, hcl, hacc, ha, hlt]
    · exact mapLookup_mapInsert_self _ _ _
    · exact mapLookup_mapInsert_self _ _ _
  · refine ⟨{ l with
        transactions_by_id := mapInsert t.transaction_id
          { ft with disputed := true } l.transactions_by_id }, ?_, ?_,
        Or.inr ⟨le_of_not_lt hlt, ?_⟩⟩
    · rw [Ledger.process_eq_dispute htype]
      unfold Ledger.dispute
      simp [hft, hcl, hacc, ha, hlt]
    · exact mapLookup_mapInsert_self _ _ _
    · exact hacc

/-- The account held by client 1 in `wLedger`. -/
def wAccount : Account :=
  { client_id := 1, available := 2, held := 0, total := 2, locked := false }

theorem C3_witness :
    ∃ l', wLedger.process (disputeTx 1 1) = some l' ∧
      mapLookup (disputeTx 1 1).transaction_id l'.transactions_by_id =
        some { depositTx 1 1 2 with disputed := true } ∧
      (((2 : ℚ) < wAccount.available ∧
          mapLookup (disputeTx 1 1).client_id l'.account_by_id =
            some { wAccount with available := wAccount.available - 2,
                                 held := wAccount.held + 2 }) ∨
       (wAccount.available ≤ (2 : ℚ) ∧
          mapLookup (disputeTx 1 1).client_id l'.account_by_id =
            some wAccount)) :=
  @C3_dispute_semantics wLedger (disputeTx 1 1) (depositTx 1 1 2) wAccount 2
    rfl rfl rfl rfl rfl

/-! ### C5: Withdrawal semantics -/

/-- C5: every Withdrawal carrying an amount is recorded in history
unconditionally (keyed by its `transaction_id`, even when rejected); if no
account exists the account mapping is unchanged; if the account exists and
`available < amount` the account mapping is unchanged; otherwise `available`
and `total` each decrease by exactly `amount` and `held` is unchanged. -/
theorem C5_withdrawal_semantics {l : Ledger} {t : Transaction} {a : ℚ}
    (htype : t.transaction_type = TransactionType.Withdrawal)
    (ha : t.amount = some a) :
    ∃ l', l.process t = some l' ∧
      mapLookup t.transaction_id l'.transactions_by_id = some t ∧
      (mapLookup t.client_id l.account_by_id = none →
        l'.account_by_id = l.account_by_id) ∧
      ∀ acc, mapLookup t.client_id l.account_by_id = some acc →
        (acc.available < a → l'.account_by_id = l.account_by_id) ∧
        (a ≤ acc.available →
          mapLookup t.client_id l'.account_by_id =
            some { acc with available := acc.available - a,
                            total := acc.total - a }) := by
  cases hacc : mapLookup t.client_id l.account_by_id with
  | none =>
    refine ⟨{ l with
        transactions_by_id :=
          mapInsert t.transaction_id t l.transactions_by_id },
      ?_, ?_, fun _ => rfl, ?_⟩
    · rw [Ledger.process_eq_withdraw htype]
      unfold Ledger.withdraw
      simp [hacc]
    · exact mapLookup_mapInsert_self _ _ _
    · intro acc hsome
      exact Option.noConfusion hsome
  | some acc0 =>
    by_cases hlt : acc0.available < a
    · refine ⟨{ l with
          transactions_by_id :=
            mapInsert t.transaction_id t l.transactions_by_id },
        ?_, ?_, ?_, ?_⟩
      · rw [Ledger.process_eq_withdraw htype]
        unfold Ledger.withdraw
        simp [hacc, ha, hlt]
      · exact mapLookup_mapInsert_self _ _ _
      · intro hnone
        exact Option.noConfusion hnone
      · intro acc hsome
        simp only [Option.some.injEq] at hsome
        subst hsome
        refine ⟨fun _ => rfl, fun hle => absurd hlt (not_lt.mpr hle)⟩
    · refine ⟨{ l with
          transactions_by_id :=
            mapInsert t.transaction_id t l.transactions_by_id,
          account_by_id := mapInsert t.client_id
            { acc0 with available := acc0.available - a,
                        total := acc0.total - a } l.account_by_id },
          ?_, ?_, ?_, ?_⟩
      · rw [Ledger.process_eq_withdraw htype]
        unfold Ledger.withdraw
        simp [hacc, ha, hlt]
      · exact mapLookup_mapInsert_self _ _ _
      · intro hnone
        exact Option.noConfusion hnone
      · intro acc hsome
        simp only [Option.some.injEq] at hsome
        subst hsome
        refine ⟨fun hlt' => absurd hlt' hlt, fun _ => ?_⟩
        exact mapLookup_mapInsert_self _ _ _

theorem C5_witness :
    ∃ l', Ledger.empty.process (withdrawalTx 1 1 2) = some l' ∧
      mapLookup (withdrawalTx 1 1 2).transaction_id l'.transactions_by_id =
        some (withdrawalTx 1 1 2) ∧
      (mapLookup (withdrawalTx 1 1 2).client_id Ledger.empty.account_by_id =
          none →
        l'.account_by_id = Ledger.empty.account_by_id) ∧
      ∀ acc,
        mapLookup (withdrawalTx 1 1 2).client_id Ledger.empty.account_by_id =
          some acc →
        (acc.available < 2 → l'.account_by_id = Ledger.empty.account_by_id) ∧
        ((2 : ℚ) ≤ acc.available →
          mapLookup (withdrawalTx 1 1 2).client_id l'.account_by_id =
            some { acc with available := acc.available - 2,
                            total := acc.total - 2 }) :=
  @C5_withdrawal_semantics Ledger.empty (withdrawalTx 1 1 2) 2 rfl rfl

/-! ### C6: Dispute on an unknown transaction id is a pure no-op -/

theorem Ledger.account_none_process {l l' : Ledger} {t : Transaction}
    {c : Nat} (hnone : mapLookup c l.account_by_id = none)
    (ht : t.transaction_type = TransactionType.Deposit → t.client_id ≠ c)
    (h : l.process t = some l') : mapLookup c l'.account_by_id = none := by
  cases htt : t.transaction_type
  case Deposit =>
    rw [Ledger.process_eq_deposit htt] at h
    have hne : t.client_id ≠ c := ht htt
    unfold Ledger.deposit at h
    split at h
    · exact Option.noConfusion h
    · split at h <;>
      · simp only [Option.some.injEq] at h
        subst h
        show mapLookup c (mapInsert t.client_id _ l.account_by_id) = none
        rw [mapLookup_mapInsert, if_neg hne]
        exact hnone
  case Withdrawal =>
    rw [Ledger.process_eq_withdraw htt] at h
    unfold Ledger.withdraw at h
    split at h
    · simp only [Option.some.injEq] at h
      subst h
      exact hnone
    · rename_i account hacc
      have hne : t.client_id ≠ c := by
        intro he
        rw [he, hnone] at hacc
        exact Option.noConfusion hacc
      split at h
      · exact Option.noConfusion h
      · split at h
        · simp only [Option.some.injEq] at h
          subst h
          exact hnone
        · simp only [Option.some.injEq] at h
          subst h
          show mapLookup c (mapInsert t.client_id _ l.account_by_id) = none
          rw [mapLookup_mapInsert, if_neg hne]
          exact hnone
  case Dispute =>
    rw [Ledger.process_eq_dispute htt] at h
    unfold Ledger.dispute at h
    split at h
    · simp only [Option.some.injEq] at h
      subst h; exact hnone
    · split at h
      · split at h
        · simp only [Option.some.injEq] at h
          subst h; exact hnone
        · rename_i account hacc
          have hne : t.client_id ≠ c := by
            intro he
            rw [he, hnone] at hacc
            exact Option.noConfusion hacc
          split at h
          · exact Option.noConfusion h
          · split at h
            · simp only [Option.some.injEq] at h
              subst h
              show mapLookup c (mapInsert t.client_id _ l.account_by_id) = none
              rw [mapLookup_mapInsert, if_neg hne]
              exact hnone
            · simp only [Option.some.injEq] at h
              subst h; exact hnone
      · simp only [Option.some.injEq] at h
        subst h; exact hnone
  case Resolve =>
    rw [Ledger.process_eq_resolve htt] at h
    unfold Ledger.resolve at h
    split at h
    · simp only [Option.some.injEq] at h
      subst h; exact hnone
    · split at h
      · split at h
        · simp only [Option.some.injEq] at h
          subst h; exact hnone
        · rename_i account hacc
          have hne : t.client_id ≠ c := by
            intro he
            rw [he, hnone] at hacc
            exact Option.noConfusion hacc
          split at h
          · exact Option.noConfusion h
          · split at h
            · simp only [Option.some.injEq] at h
              subst h
              show mapLookup c (mapInsert t.client_id _ l.account_by_id) = none
              rw [mapLookup_mapInsert, if_neg hne]
              exact hnone
            · simp only [Option.some.injEq] at h
              subst h; exact hnone
      · simp only [Option.some.injEq] at h
        subst h; exact hnone
  case Chargeback =>
    rw [Ledger.process_eq_chargeback htt] at h
    unfold Ledger.chargeback at h
    split at h
    · simp only [Option.some.injEq] at h
      subst h; exact hnone
    · split at h
      · split at h
        · simp only [Option.some.injEq] at h
          subst h; exact hnone
        · rename_i account hacc
          have hne : t.client_id ≠ c := by
            intro he
            rw [he, hnone] at hacc
            exact Option.noConfusion hacc
          split at h
          · exact Option.noConfusion h
          · split at h
            · simp only [Option.some.injEq] at h
              subst h
              show mapLookup c (mapInsert t.client_id _ l.account_by_id) = none
              rw [mapLookup_mapInsert, if_neg hne]
              exact hnone
            · simp only [Option.some.injEq] at h
              subst h; exact hnone
      · simp only [Option.some.injEq] at h
        subst h; exact hnone

theorem Ledger.account_none_processList {ts : List Transaction}
    {l l' : Ledger} {c : Nat}
    (hnone : mapLookup c l.account_by_id = none)
    (h : l.processList ts = some l')
    (ht : ∀ t ∈ ts, t.transaction_type = TransactionType.Deposit →
      t.client_id ≠ c) :
    mapLookup c l'.account_by_id = none := by
  induction ts generalizing l with
  | nil =>
    unfold Ledger.processList at h
    cases h
    exact hnone
  | cons t rest ih =>
    unfold Ledger.processList at h
    cases hp : l.process t with
    | none => rw [hp] at h; exact Option.noConfusion h
    | some l1 =>
      rw [hp] at h
      exact ih
        (Ledger.account_none_process hnone (ht t (List.mem_cons_self t rest)) hp)
        h (fun u hu => ht u (List.mem_cons_of_mem t hu))

/-- C6: a Dispute whose `tx_id` is not in history leaves the ledger
completely unchanged (both mappings), and `get_account` for a client with no
deposit in the whole processed sequence returns nothing. -/
theorem C6_dispute_unknown_tx_noop :
    (∀ (l : Ledger) (t : Transaction),
        t.transaction_type = TransactionType.Dispute →
        mapLookup t.transaction_id l.transactions_by_id = none →
        l.process t = some l) ∧
    (∀ (ts : List Transaction) (l : Ledger) (c : Nat),
        Ledger.empty.processList ts = some l →
        (∀ t ∈ ts, t.transaction_type = TransactionType.Deposit →
          t.client_id ≠ c) →
        l.get_account c = none) := by
  constructor
  · intro l t htype hnone
    rw [Ledger.process_eq_dispute htype]
    unfold Ledger.dispute
    simp [hnone]
  · intro ts l c h ht
    have h0 : mapLookup c Ledger.empty.account_by_id = none := rfl
    exact Ledger.account_none_processList h0 h ht

theorem C6_witness :
    wLedger.process (disputeTx 1 99) = some wLedger ∧
    wLedger.get_account 2 = none :=
  ⟨C6_dispute_unknown_tx_noop.1 wLedger (disputeTx 1 99) rfl rfl,
   C6_dispute_unknown_tx_noop.2 [depositTx 1 1 2] wLedger 2 rfl
     (by
       intro t htmem _
       simp only [List.mem_singleton] at htmem
       subst htmem
       simp [depositTx])⟩

/-! ### C7: the worked dispute / chargeback example -/

/-- C7: from the empty ledger, deposit(client 1, tx 1, 1.5), then
deposit(client 1, tx 2, 10.0), then dispute(client 1, tx 1) yields account 1
with available 10, held 1.5, total 11.5; additionally processing
chargeback(client 1, tx 1) yields available 10, held 0, total 10, locked. -/
theorem C7_dispute_chargeback_example :
    (Ledger.empty.processList
        [depositTx 1 1 (3/2), depositTx 1 2 10, disputeTx 1 1]).bind
      (fun l => l.get_account 1) =
      some { client_id := 1, available := 10, held := 3/2, total := 23/2,
             locked := false } ∧
    (Ledger.empty.processList
        [depositTx 1 1 (3/2), depositTx 1 2 10, disputeTx 1 1,
         chargebackTx 1 1]).bind
      (fun l => l.get_account 1) =
      some { client_id := 1, available := 10, held := 0, total := 10,
             locked := true } := by
  constructor <;>
    norm_num [Ledger.processList, Ledger.process, Ledger.deposit,
      Ledger.dispute, Ledger.chargeback, Ledger.get_account, Ledger.empty,
      depositTx, disputeTx, chargebackTx, Account.new, mapLookup, mapInsert,
      Option.bind]

/-! ### C2: `process` panics on absent amounts; totality holds when every
Deposit/Withdrawal carries an amount -/

/-- C2 counterexample: a Deposit whose `amount` field is absent makes
`Ledger::process` panic (`transaction.amount.unwrap()`), modelled as a
`none` result — `process` is not a total, state-preserving function on such
input. -/
theorem C2_counterexample :
    Ledger.empty.process
      { transaction_type := TransactionType.Deposit, client_id := 1,
        transaction_id := 1, amount := none, disputed := false } = none := rfl

theorem Ledger.process_isSome {l : Ledger} {t : Transaction}
    (hl : l.historyAmountsPresent)
    (ht : (t.transaction_type = TransactionType.Deposit ∨
           t.transaction_type = TransactionType.Withdrawal) →
          t.amount.isSome) :
    (l.process t).isSome := by
  cases htt : t.transaction_type
  case Deposit =>
    rw [Ledger.process_eq_deposit htt]
    unfold Ledger.deposit
    cases ha : t.amount with
    | none =>
      have hs := ht (Or.inl htt)
      rw [ha] at hs
      simp at hs
    | some a =>
      cases hacc : mapLookup t.client_id l.account_by_id <;> simp
  case Withdrawal =>
    rw [Ledger.process_eq_withdraw htt]
    unfold Ledger.withdraw
    cases hacc : mapLookup t.client_id l.account_by_id with
    | none => simp
    | some account =>
      cases ha : t.amount with
      | none =>
        have hs := ht (Or.inr htt)
        rw [ha] at hs
        simp at hs
      | some a => by_cases hlt : account.available < a <;> simp [hlt]
  case Dispute =>
    rw [Ledger.process_eq_dispute htt]
    unfold Ledger.dispute
    cases hft : mapLookup t.transaction_id l.transactions_by_id with
    | none => simp
    | some ft =>
      by_cases hcl : ft.client_id = t.client_id
      · cases hacc : mapLookup t.client_id l.account_by_id with
        | none => simp [hcl]
        | some account =>
          have hfa := hl _ _ hft
          cases ha : ft.amount with
          | none => rw [ha] at hfa; simp at hfa
          | some a =>
            by_cases hlt : a < account.available <;> simp [hcl, ha, hlt]
      · simp [hcl]
  case Resolve =>
    rw [Ledger.process_eq_resolve htt]
    unfold Ledger.resolve
    cases hft : mapLookup t.transaction_id l.transactions_by_id with
    | none => simp
    | some ft =>
      by_cases hcl : ft.client_id = t.client_id
      · cases hacc : mapLookup t.client_id l.account_by_id with
        | none => simp [hcl]
        | some account =>
          have hfa := hl _ _ hft
          cases ha : ft.amount with
          | none => rw [ha] at hfa; simp at hfa
          | some a =>
            by_cases hg : ft.disputed = true ∧ a ≤ account.held <;>
              simp [hcl, ha, hg]
      · simp [hcl]
  case Chargeback =>
    rw [Ledger.process_eq_chargeback htt]
    unfold Ledger.chargeback
    cases hft : mapLookup t.transaction_id l.transactions_by_id with
    | none => simp
    | some ft =>
      by_cases hcl : ft.client_id = t.client_id
      · cases hacc : mapLookup t.client_id l.account_by_id with
        | none => simp [hcl]
        | some account =>
          have hfa := hl _ _ hft
          cases ha : ft.amount with
          | none => rw [ha] at hfa; simp at hfa
          | some a =>
            by_cases hg : ft.disputed = true ∧ a ≤ account.held <;>
              simp [hcl, ha, hg]
      · simp [hcl]

theorem Ledger.historyPresent_process {l l' : Ledger} {t : Transaction}
    (hl : l.historyAmountsPresent)
    (ht : (t.transaction_type = TransactionType.Deposit ∨
           t.transaction_type = TransactionType.Withdrawal) →
          t.amount.isSome)
    (h : l.process t = some l') : l'.historyAmountsPresent := by
  cases htt : t.transaction_type
  case Deposit =>
    rw [Ledger.process_eq_deposit htt] at h
    unfold Ledger.deposit at h
    split at h
    · exact Option.noConfusion h
    · split at h <;>
      · simp only [Option.some.injEq] at h
        subst h
        intro k e hk
        simp only [mapLookup_mapInsert] at hk
        split at hk
        · simp only [Option.some.injEq] at hk
          subst hk
          exact ht (Or.inl htt)
        · exact hl k e hk
  case Withdrawal =>
    rw [Ledger.process_eq_withdraw htt] at h
    unfold Ledger.withdraw at h
    have hinsert : ∀ m : List (Nat × Account),
        Ledger.historyAmountsPresent
          { transactions_by_id :=
              mapInsert t.transaction_id t l.transactions_by_id,
            account_by_id := m } := by
      intro m k e hk
      simp only [mapLookup_mapInsert] at hk
      split at hk
      · simp only [Option.some.injEq] at hk
        subst hk
        exact ht (Or.inr htt)
      · exact hl k e hk
    split at h
    · simp only [Option.some.injEq] at h
      subst h
      exact hinsert _
    · split at h
      · exact Option.noConfusion h
      · split at h <;>
        · simp only [Option.some.injEq] at h
          subst h
          exact hinsert _
  case Dispute =>
    rw [Ledger.process_eq_dispute htt] at h
    unfold Ledger.dispute at h
    split at h
    · simp only [Option.some.injEq] at h
      subst h; exact hl
    · rename_i ft hft
      split at h
      · split at h
        · simp only [Option.some.injEq] at h
          subst h; exact hl
        · split at h
          · exact Option.noConfusion h
          · split at h <;>
            · simp only [Option.some.injEq] at h
              subst h
              intro k e hk
              simp only [mapLookup_mapInsert] at hk
              split at hk
              · simp only [Option.some.injEq] at hk
                subst hk
                exact hl t.transaction_id ft hft
              · exact hl k e hk
      · simp only [Option.some.injEq] at h
        subst h; exact hl
  case Resolve =>
    rw [Ledger.process_eq_resolve htt] at h
    unfold Ledger.resolve at h
    split at h
    · simp only [Option.some.injEq] at h
      subst h; exact hl
    · rename_i ft hft
      split at h
      · split at h
        · simp only [Option.some.injEq] at h
          subst h; exact hl
        · split at h
          · exact Option.noConfusion h
          · split at h <;>
            · simp only [Option.some.injEq] at h
              subst h
              intro k e hk
              simp only [mapLookup_mapInsert] at hk
              split at hk
              · simp only [Option.some.injEq] at hk
                subst hk
                exact hl t.transaction_id ft hft
              · exact hl k e hk
      · simp only [Option.some.injEq] at h
        subst h; exact hl
  case Chargeback =>
    rw [Ledger.process_eq_chargeback htt] at h
    unfold Ledger.chargeback at h
    split at h
    · simp only [Option.some.injEq] at h
      subst h; exact hl
    · rename_i ft hft
      split at h
      · split at h
        · simp only [Option.some.injEq] at h
          subst h; exact hl
        · split at h
          · exact Option.noConfusion h
          · split at h <;>
            · simp only [Option.some.injEq] at h
              subst h
              intro k e hk
              simp only [mapLookup_mapInsert] at hk
              split at hk
              · simp only [Option.some.injEq] at hk
                subst hk
                exact hl t.transaction_id ft hft
              · exact hl k e hk
      · simp only [Option.some.injEq] at h
        subst h; exact hl

theorem Ledger.processList_isSome {ts : List Transaction} {l : Ledger}
    (hl : l.historyAmountsPresent) (hts : amountsPresent ts) :
    (l.processList ts).isSome := by
  induction ts generalizing l with
  | nil => simp [Ledger.processList]
  | cons t rest ih =>
    unfold Ledger.processList
    have hs := Ledger.process_isSome hl (hts t (List.mem_cons_self t rest))
    cases hp : l.process t with
    | none => rw [hp] at hs; simp at hs
    | some l1 =>
      exact ih (Ledger.historyPresent_process hl
        (hts t (List.mem_cons_self t rest)) hp)
        (fun u hu => hts u (List.mem_cons_of_mem t hu))

/-- C2 amended: for every transaction sequence in which every Deposit and
Withdrawal carries a present amount, `process` never panics — the whole run
completes.  (On absent amounts the code does panic; see the
counterexample.) -/
theorem C2_amended_no_panic (ts : List Transaction)
    (hts : amountsPresent ts) : (Ledger.empty.processList ts).isSome :=
  Ledger.processList_isSome (fun _ _ hk => Option.noConfusion hk) hts

theorem C2_witness :
    amountsPresent [depositTx 1 1 2] ∧
    (Ledger.empty.processList [depositTx 1 1 2]).isSome :=
  ⟨by simp [amountsPresent, depositTx],
   C2_amended_no_panic [depositTx 1 1 2] (by simp [amountsPresent, depositTx])⟩

/-! ### C8: Resolve clears the flag only inside the account-exists branch -/

/-- A withdrawal record whose `disputed` field is already true on input (the
`disputed` serde field defaults to false but is part of the deserialized
`Transaction` value); processed for a client with no account, it is stored
in history verbatim. -/
def phantomTx : Transaction :=
  { transaction_type := TransactionType.Withdrawal, client_id := 1,
    transaction_id := 1, amount := some 1, disputed := true }

/-- C8 counterexample: starting from the empty ledger, processing
`phantomTx` (a withdrawal for a client with no account, stored in history
with `disputed = true`) and then a Resolve for the same transaction id and
client leaves the stored transaction's `disputed` flag `true`: when no
account exists the code never reaches the flag-clearing statement, contrary
to the claim. -/
theorem C8_counterexample :
    ∃ l, Ledger.empty.processList [phantomTx, resolveTx 1 1] = some l ∧
      mapLookup (resolveTx 1 1).transaction_id l.transactions_by_id =
        some phantomTx ∧
      phantomTx.client_id = (resolveTx 1 1).client_id ∧
      phantomTx.disputed = true ∧
      mapLookup (resolveTx 1 1).client_id l.account_by_id = none :=
  ⟨{ transactions_by_id := [(1, phantomTx)], account_by_id := [] },
    rfl, rfl, rfl, rfl, rfl⟩

/-- C8 amended: for every Resolve whose `tx_id` is found in history with a
matching `client_id`, the stored transaction's `disputed` flag is false
after processing whenever an account exists for that `client_id`,
regardless of whether the fund movement occurred; when no account exists the
ledger is returned unchanged (the flag keeps its prior value). -/
theorem C8_amended_resolve_clears_flag {l : Ledger} {t ft : Transaction}
    (htype : t.transaction_type = TransactionType.Resolve)
    (hft : mapLookup t.transaction_id l.transactions_by_id = some ft)
    (hcl : ft.client_id = t.client_id) :
    (∀ acc l', mapLookup t.client_id l.account_by_id = some acc →
        l.process t = some l' →
        mapLookup t.transaction_id l'.transactions_by_id =
          some { ft with disputed := false }) ∧
    (mapLookup t.client_id l.account_by_id = none →
      l.process t = some l) := by
  constructor
  · intro acc l' hacc h
    rw [Ledger.process_eq_resolve htype] at h
    unfold Ledger.resolve at h
    split at h
    · rename_i hft'
      rw [hft'] at hft
      exact Option.noConfusion hft
    · rename_i ft' hft'
      rw [hft'] at hft
      simp only [Option.some.injEq] at hft
      subst hft
      split at h
      · split at h
        · rename_i hacc'
          rw [hacc'] at hacc
          exact Option.noConfusion hacc
        · split at h
          · exact Option.noConfusion h
          · split at h <;>
            · simp only [Option.some.injEq] at h
              subst h
              exact mapLookup_mapInsert_self _ _ _
      · rename_i hcl'
        exact absurd hcl hcl'
  · intro hnone
    rw [Ledger.process_eq_resolve htype]
    unfold Ledger.resolve
    simp [hft, hcl, hnone]

theorem C8_witness :
    mapLookup (resolveTx 1 1).transaction_id wLedger.transactions_by_id =
      some { depositTx 1 1 2 with disputed := false } :=
  (@C8_amended_resolve_clears_flag wLedger (resolveTx 1 1) (depositTx 1 1 2)
    rfl rfl rfl).1 wAccount wLedger rfl rfl

/-! ### C9: non-negativity of all balances -/

theorem Ledger.historyNonneg_process {l l' : Ledger} {t : Transaction}
    (hh : l.historyAmountsNonneg)
    (ht : (t.transaction_type = TransactionType.Deposit ∨
           t.transaction_type = TransactionType.Withdrawal) →
          ∃ a, t.amount = some a ∧ 0 ≤ a)
    (h : l.process t = some l') : l'.historyAmountsNonneg := by
  cases htt : t.transaction_type
  case Deposit =>
    rw [Ledger.process_eq_deposit htt] at h
    unfold Ledger.deposit at h
    split at h
    · exact Option.noConfusion h
    · split at h <;>
      · simp only [Option.some.injEq] at h
        subst h
        intro k e hk
        simp only [mapLookup_mapInsert] at hk
        split at hk
        · simp only [Option.some.injEq] at hk
          subst hk
          exact ht (Or.inl htt)
        · exact hh k e hk
  case Withdrawal =>
    rw [Ledger.process_eq_withdraw htt] at h
    unfold Ledger.withdraw at h
    have hinsert : ∀ m : List (Nat × Account),
        Ledger.historyAmountsNonneg
          { transactions_by_id :=
              mapInsert t.transaction_id t l.transactions_by_id,
            account_by_id := m } := by
      intro m k e hk
      simp only [mapLookup_mapInsert] at hk
      split at hk
      · simp only [Option.some.injEq] at hk
        subst hk
        exact ht (Or.inr htt)
      · exact hh k e hk
    split at h
    · simp only [Option.some.injEq] at h
      subst h
      exact hinsert _
    · split at h
      · exact Option.noConfusion h
      · split at h <;>
        · simp only [Option.some.injEq] at h
          subst h
          exact hinsert _
  case Dispute =>
    rw [Ledger.process_eq_dispute htt] at h
    unfold Ledger.dispute at h
    split at h
    · simp only [Option.some.injEq] at h
      subst h; exact hh
    · rename_i ft hft
      split at h
      · split at h
        · simp only [Option.some.injEq] at h
          subst h; exact hh
        · split at h
          · exact Option.noConfusion h
          · split at h <;>
            · simp only [Option.some.injEq] at h
              subst h
              intro k e hk
              simp only [mapLookup_mapInsert] at hk
              split at hk
              · simp only [Option.some.injEq] at hk
                subst hk
                exact hh t.transaction_id ft hft
              · exact hh k e hk
      · simp only [Option.some.injEq] at h
        subst h; exact hh
  case Resolve =>
    rw [Ledger.process_eq_resolve htt] at h
    unfold Ledger.resolve at h
    split at h
    · simp only [Option.some.injEq] at h
      subst h; exact hh
    · rename_i ft hft
      split at h
      · split at h
        · simp only [Option.some.injEq] at h
          subst h; exact hh
        · split at h
          · exact Option.noConfusion h
          · split at h <;>
            · simp only [Option.some.injEq] at h
              subst h
              intro k e hk
              simp only [mapLookup_mapInsert] at hk
              split at hk
              · simp only [Option.some.injEq] at hk
                subst hk
                exact hh t.transaction_id ft hft
              · exact hh k e hk
      · simp only [Option.some.injEq] at h
        subst h; exact hh
  case Chargeback =>
    rw [Ledger.process_eq_chargeback htt] at h
    unfold Ledger.chargeback at h
    split at h
    · simp only [Option.some.injEq] at h
      subst h; exact hh
    · rename_i ft hft
      split at h
      · split at h
        · simp only [Option.some.injEq] at h
          subst h; exact hh
        · split at h
          · exact Option.noConfusion h
          · split at h <;>
            · simp only [Option.some.injEq] at h
              subst h
              intro k e hk
              simp only [mapLookup_mapInsert] at hk
              split at hk
              · simp only [Option.some.injEq] at hk
                subst hk
                exact hh t.transaction_id ft hft
              · exact hh k e hk
      · simp only [Option.some.injEq] at h
        subst h; exact hh

theorem Ledger.nonneg_process {l l' : Ledger} {t : Transaction}
    (hb : l.balanced) (hn : l.nonnegAccounts) (hh : l.historyAmountsNonneg)
    (ht : (t.transaction_type = TransactionType.Deposit ∨
           t.transaction_type = TransactionType.Withdrawal) →
          ∃ a, t.amount = some a ∧ 0 ≤ a)
    (h : l.process t = some l') : l'.nonnegAccounts := by
  cases htt : t.transaction_type
  case Deposit =>
    rw [Ledger.process_eq_deposit htt] at h
    obtain ⟨a0, ha0, ha0n⟩ := ht (Or.inl htt)
    unfold Ledger.deposit at h
    split at h
    · exact Option.noConfusion h
    · rename_i a ha
      rw [ha0] at ha
      simp only [Option.some.injEq] at ha
      subst ha
      split at h
      · rename_i account hacc
        simp only [Option.some.injEq] at h
        subst h
        intro c acc hc
        simp only [mapLookup_mapInsert] at hc
        split at hc
        · simp only [Option.some.injEq] at hc
          subst hc
          obtain ⟨h1, h2, h3⟩ := hn t.client_id account hacc
          refine ⟨?_, ?_, ?_⟩
          · show (0:ℚ) ≤ account.available + a0
            linarith
          · show (0:ℚ) ≤ account.held
            exact h2
          · show (0:ℚ) ≤ account.available + a0 + account.held
            linarith
        · exact hn c acc hc
      · simp only [Option.some.injEq] at h
        subst h
        intro c acc hc
        simp only [mapLookup_mapInsert] at hc
        split at hc
        · simp only [Option.some.injEq] at hc
          subst hc
          exact ⟨ha0n, le_refl 0, ha0n⟩
        · exact hn c acc hc
  case Withdrawal =>
    rw [Ledger.process_eq_withdraw htt] at h
    obtain ⟨a0, ha0, ha0n⟩ := ht (Or.inr htt)
    unfold Ledger.withdraw at h
    split at h
    · simp only [Option.some.injEq] at h
      subst h
      exact hn
    · rename_i account hacc
      split at h
      · exact Option.noConfusion h
      · rename_i a ha
        rw [ha0] at ha
        simp only [Option.some.injEq] at ha
        subst ha
        split at h
        · simp only [Option.some.injEq] at h
          subst h
          exact hn
        · rename_i hlt
          simp only [Option.some.injEq] at h
          subst h
          intro c acc hc
          simp only [mapLookup_mapInsert] at hc
          split at hc
          · simp only [Option.some.injEq] at hc
            subst hc
            obtain ⟨h1, h2, h3⟩ := hn t.client_id account hacc
            have hbt := hb t.client_id account hacc
            have hge : a0 ≤ account.available := not_lt.mp hlt
            refine ⟨?_, h2, ?_⟩
            · show (0:ℚ) ≤ account.available - a0
              linarith
            · show (0:ℚ) ≤ account.total - a0
              linarith
          · exact hn c acc hc
  case Dispute =>
    rw [Ledger.process_eq_dispute htt] at h
    unfold Ledger.dispute at h
    split at h
    · simp only [Option.some.injEq] at h
      subst h; exact hn
    · rename_i ft hft
      split at h
      · split at h
        · simp only [Option.some.injEq] at h
          subst h; exact hn
        · rename_i account hacc
          split at h
          · exact Option.noConfusion h
          · rename_i a ha
            obtain ⟨a1, ha1, ha1n⟩ := hh t.transaction_id ft hft
            rw [ha1] at ha
            simp only [Option.some.injEq] at ha
            subst ha
            split at h
            · rename_i hlt
              simp only [Option.some.injEq] at h
              subst h
              intro c acc hc
              simp only [mapLookup_mapInsert] at hc
              split at hc
              · simp only [Option.some.injEq] at hc
                subst hc
                obtain ⟨h1, h2, h3⟩ := hn t.client_id account hacc
                refine ⟨?_, ?_, ?_⟩
                · show (0:ℚ) ≤ account.available - a1
                  linarith
                · show (0:ℚ) ≤ account.held + a1
                  linarith
                · show (0:ℚ) ≤ account.total
                  exact h3
              · exact hn c acc hc
            · simp only [Option.some.injEq] at h
              subst h; exact hn
      · simp only [Option.some.injEq] at h
        subst h; exact hn
  case Resolve =>
    rw [Ledger.process_eq_resolve htt] at h
    unfold Ledger.resolve at h
    split at h
    · simp only [Option.some.injEq] at h
      subst h; exact hn
    · rename_i ft hft
      split at h
      · split at h
        · simp only [Option.some.injEq] at h
          subst h; exact hn
        · rename_i account hacc
          split at h
          · exact Option.noConfusion h
          · rename_i a ha
            obtain ⟨a1, ha1, ha1n⟩ := hh t.transaction_id ft hft
            rw [ha1] at ha
            simp only [Option.some.injEq] at ha
            subst ha
            split at h
            · rename_i hg
              simp only [Option.some.injEq] at h
              subst h
              intro c acc hc
              simp only [mapLookup_mapInsert] at hc
              split at hc
              · simp only [Option.some.injEq] at hc
                subst hc
                obtain ⟨h1, h2, h3⟩ := hn t.client_id account hacc
                have hgh := hg.2
                refine ⟨?_, ?_, ?_⟩
                · show (0:ℚ) ≤ account.available + a1
                  linarith
                · show (0:ℚ) ≤ account.held - a1
                  linarith
                · show (0:ℚ) ≤ account.total
                  exact h3
              · exact hn c acc hc
            · simp only [Option.some.injEq] at h
              subst h; exact hn
      · simp only [Option.some.injEq] at h
        subst h; exact hn
  case Chargeback =>
    rw [Ledger.process_eq_chargeback htt] at h
    unfold Ledger.chargeback at h
    split at h
    · simp only [Option.some.injEq] at h
      subst h; exact hn
    · rename_i ft hft
      split at h
      · split at h
        · simp only [Option.some.injEq] at h
          subst h; exact hn
        · rename_i account hacc
          split at h
          · exact Option.noConfusion h
          · rename_i a ha
            obtain ⟨a1, ha1, ha1n⟩ := hh t.transaction_id ft hft
            rw [ha1] at ha
            simp only [Option.some.injEq] at ha
            subst ha
            split at h
            · rename_i hg
              simp only [Option.some.injEq] at h
              subst h
              intro c acc hc
              simp only [mapLookup_mapInsert] at hc
              split at hc
              · simp only [Option.some.injEq] at hc
                subst hc
                obtain ⟨h1, h2, h3⟩ := hn t.client_id account hacc
                have hbt := hb t.client_id account hacc
                have hgh := hg.2
                refine ⟨h1, ?_, ?_⟩
                · show (0:ℚ) ≤ account.held - a1
                  linarith
                · show (0:ℚ) ≤ account.total - a1
                  linarith
              · exact hn c acc hc
            · simp only [Option.some.injEq] at h
              subst h; exact hn
      · simp only [Option.some.injEq] at h
        subst h; exact hn

theorem Ledger.nonneg_processList {ts : List Transaction} {l l' : Ledger}
    (hb : l.balanced) (hn : l.nonnegAccounts) (hh : l.historyAmountsNonneg)
    (hts : amountsNonneg ts) (h : l.processList ts = some l') :
    l'.nonnegAccounts := by
  induction ts generalizing l with
  | nil =>
    unfold Ledger.processList at h
    cases h
    exact hn
  | cons t rest ih =>
    unfold Ledger.processList at h
    cases hp : l.process t with
    | none => rw [hp] at h; exact Option.noConfusion h
    | some l1 =>
      rw [hp] at h
      have htn := hts t (List.mem_cons_self t rest)
      exact ih (Ledger.balanced_process hb hp)
        (Ledger.nonneg_process hb hn hh htn hp)
        (Ledger.historyNonneg_process hh htn hp)
        (fun u hu => hts u (List.mem_cons_of_mem t hu)) h

/-- C9: for every sequence of transactions in which every Deposit and
Withdrawal carries a non-negative amount, every account's `available`,
`held` and `total` are non-negative after each call to `Ledger.process`
(every intermediate state is the result of processing a prefix, which this
theorem also covers). -/
theorem C9_nonnegative_balances (ts : List Transaction) (l : Ledger)
    (hts : amountsNonneg ts) (h : Ledger.empty.processList ts = some l) :
    l.nonnegAccounts :=
  Ledger.nonneg_processList Ledger.balanced_empty
    (fun _ _ hc => Option.noConfusion hc)
    (fun _ _ hk => Option.noConfusion hk) hts h

theorem C9_witness :
    amountsNonneg [depositTx 1 1 2] ∧
    Ledger.empty.processList [depositTx 1 1 2] = some wLedger ∧
    wLedger.nonnegAccounts :=
  ⟨by simp [amountsNonneg, depositTx],
   rfl,
   C9_nonnegative_balances [depositTx 1 1 2] wLedger
     (by simp [amountsNonneg, depositTx]) rfl⟩

/-! ### C10: a disputed history entry need not have an account -/

/-- C10 counterexample: processing a single withdrawal whose `disputed`
field is already true on input (for a client with no account) produces a
reachable state whose history holds a `disputed = true` entry while the
account mapping has no entry for that client. -/
theorem C10_counterexample :
    ∃ l, Ledger.empty.processList [phantomTx] = some l ∧
      mapLookup 1 l.transactions_by_id = some phantomTx ∧
      phantomTx.disputed = true ∧
      mapLookup phantomTx.client_id l.account_by_id = none :=
  ⟨{ transactions_by_id := [(1, phantomTx)], account_by_id := [] },
    rfl, rfl, rfl, rfl⟩

/-- The invariant of C10: every history entry with `disputed = true` has an
account for its client. -/
def Ledger.disputedImpliesAccount (l : Ledger) : Prop :=
  ∀ k e, mapLookup k l.transactions_by_id = some e → e.disputed = true →
    (mapLookup e.client_id l.account_by_id).isSome

theorem Ledger.disputedImpliesAccount_process {l l' : Ledger}
    {t : Transaction} (hq : l.disputedImpliesAccount)
    (ht : t.disputed = false) (h : l.process t = some l') :
    l'.disputedImpliesAccount := by
  cases htt : t.transaction_type
  case Deposit =>
    rw [Ledger.process_eq_deposit htt] at h
    unfold Ledger.deposit at h
    split at h
    · exact Option.noConfusion h
    · split at h <;>
      · simp only [Option.some.injEq] at h
        subst h
        intro k e hk he
        simp only [mapLookup_mapInsert] at hk
        split at hk
        · simp only [Option.some.injEq] at hk
          subst hk
          rw [ht] at he
          exact Bool.noConfusion he
        · have hs := hq k e hk he
          rcases Option.isSome_iff_exists.mp hs with ⟨v, hv⟩
          simp only [mapLookup_mapInsert]
          split <;> simp [hv]
  case Withdrawal =>
    rw [Ledger.process_eq_withdraw htt] at h
    unfold Ledger.withdraw at h
    split at h
    · simp only [Option.some.injEq] at h
      subst h
      intro k e hk he
      simp only [mapLookup_mapInsert] at hk
      split at hk
      · simp only [Option.some.injEq] at hk
        subst hk
        rw [ht] at he
        exact Bool.noConfusion he
      · exact hq k e hk he
    · split at h
      · exact Option.noConfusion h
      · split at h <;>
        · simp only [Option.some.injEq] at h
          subst h
          intro k e hk he
          simp only [mapLookup_mapInsert] at hk
          split at hk
          · simp only [Option.some.injEq] at hk
            subst hk
            rw [ht] at he
            exact Bool.noConfusion he
          · have hs := hq k e hk he
            rcases Option.isSome_iff_exists.mp hs with ⟨v, hv⟩
            first
            | (simp only [mapLookup_mapInsert]
               split <;> simp [hv])
            | simp [hv]
  case Dispute =>
    rw [Ledger.process_eq_dispute htt] at h
    unfold Ledger.dispute at h
    split at h
    · simp only [Option.some.injEq] at h
      subst h; exact hq
    · rename_i ft hft
      split at h
      · rename_i hcl
        split at h
        · simp only [Option.some.injEq] at h
          subst h; exact hq
        · rename_i account hacc
          split at h
          · exact Option.noConfusion h
          · split at h <;>
            · simp only [Option.some.injEq] at h
              subst h
              intro k e hk he
              simp only [mapLookup_mapInsert] at hk
              split at hk
              · simp only [Option.some.injEq] at hk
                subst hk
                simp [hcl, hacc, mapLookup_mapInsert]
              · have hs := hq k e hk he
                rcases Option.isSome_iff_exists.mp hs with ⟨v, hv⟩
                first
                | (simp only [mapLookup_mapInsert]
                   split <;> simp [hv])
                | simp [hv]
      · simp only [Option.some.injEq] at h
        subst h; exact hq
  case Resolve =>
    rw [Ledger.process_eq_resolve htt] at h
    unfold Ledger.resolve at h
    split at h
    · simp only [Option.some.injEq] at h
      subst h; exact hq
    · rename_i ft hft
      split at h
      · split at h
        · simp only [Option.some.injEq] at h
          subst h; exact hq
        · rename_i account hacc
          split at h
          · exact Option.noConfusion h
          · split at h <;>
            · simp only [Option.some.injEq] at h
              subst h
              intro k e hk he
              simp only [mapLookup_mapInsert] at hk
              split at hk
              · simp only [Option.some.injEq] at hk
                subst hk
                exact Bool.noConfusion he
              · have hs := hq k e hk he
                rcases Option.isSome_iff_exists.mp hs with ⟨v, hv⟩
                first
                | (simp only [mapLookup_mapInsert]
                   split <;> simp [hv])
                | simp [hv]
      · simp only [Option.some.injEq] at h
        subst h; exact hq
  case Chargeback =>
    rw [Ledger.process_eq_chargeback htt] at h
    unfold Ledger.chargeback at h
    split at h
    · simp only [Option.some.injEq] at h
      subst h; exact hq
    · rename_i ft hft
      split at h
      · split at h
        · simp only [Option.some.injEq] at h
          subst h; exact hq
        · rename_i account hacc
          split at h
          · exact Option.noConfusion h
          · split at h <;>
            · simp only [Option.some.injEq] at h
              subst h
              intro k e hk he
              simp only [mapLookup_mapInsert] at hk
              split at hk
              · simp only [Option.some.injEq] at hk
                subst hk
                exact Bool.noConfusion he
              · have hs := hq k e hk he
                rcases Option.isSome_iff_exists.mp hs with ⟨v, hv⟩
                first
                | (simp only [mapLookup_mapInsert]
                   split <;> simp [hv])
                | simp [hv]
      · simp only [Option.some.injEq] at h
        subst h; exact hq

theorem Ledger.disputedImpliesAccount_processList {ts : List Transaction}
    {l l' : Ledger} (hq : l.disputedImpliesAccount)
    (hts : ∀ t ∈ ts, t.disputed = false)
    (h : l.processList ts = some l') : l'.disputedImpliesAccount := by
  induction ts generalizing l with
  | nil =>
    unfold Ledger.processList at h
    cases h
    exact hq
  | cons t rest ih =>
    unfold Ledger.processList at h
    cases hp : l.process t with
    | none => rw [hp] at h; exact Option.noConfusion h
    | some l1 =>
      rw [hp] at h
      exact ih
        (Ledger.disputedImpliesAccount_process hq
          (hts t (List.mem_cons_self t rest)) hp)
        (fun u hu => hts u (List.mem_cons_of_mem t hu)) h

/-- C10 amended: in every ledger state reachable from the empty ledger by
processing transactions whose `disputed` input field is false (as the
record source produces them), every history entry with `disputed = true`
has an account for its `client_id`.  (An input transaction carrying
`disputed = true` violates the original claim; see the counterexample.) -/
theorem C10_amended_disputed_implies_account (ts : List Transaction)
    (l : Ledger) (hts : ∀ t ∈ ts, t.disputed = false)
    (h : Ledger.empty.processList ts = some l) :
    l.disputedImpliesAccount :=
  Ledger.disputedImpliesAccount_processList
    (fun _ _ hk => Option.noConfusion hk) hts h

/-- The ledger after deposit(1,1,2), deposit(1,2,10), dispute(1,1). -/
def w9Ledger : Ledger :=
  { transactions_by_id :=
      [(1, { depositTx 1 1 2 with disputed := true }), (2, depositTx 1 2 10)],
    account_by_id :=
      [(1, { client_id := 1, available := 10, held := 2, total := 12,
             locked := false })] }

theorem C10_witness :
    (mapLookup ({ depositTx 1 1 2 with disputed := true }).client_id
      w9Ledger.account_by_id).isSome :=
  C10_amended_disputed_implies_account
    [depositTx 1 1 2, depositTx 1 2 10, disputeTx 1 1] w9Ledger
    (by simp [depositTx, disputeTx])
    (by norm_num [Ledger.processList, Ledger.process, Ledger.deposit,
        Ledger.dispute, Ledger.empty, depositTx, disputeTx, Account.new,
        mapLookup, mapInsert, w9Ledger])
    1 { depositTx 1 1 2 with disputed := true } rfl rfl
